import Mathlib

/-!
# ristretto: the sharded store and the eviction worker

A shallow embedding of `store.go` and of `evictor.go`: the worker step and the
lifecycle of the coordinator.

* A Go `map[uint64]interface{}` is a partial function from keys to values
  (`Nat → Option Value`): `m.data[key]` is application, `m.data[key] = v` and
  `delete(m.data, key)` are point updates, `make(map...)` is the empty function.
* A `uint64` key is a natural number.  The only arithmetic on keys is
  `key % numShards`, which cannot overflow, so every statement is proved for all
  naturals and in particular for all keys below `2 ^ 64`.
* `interface{}` is `Value`, whose constructor `Value.nil` is the nil interface.
* `[]*lockedMap` is a list of optional maps: `none` is the nil pointer.  Indexing
  out of range and dereferencing a nil shard are Go panics; the operations of
  `shardedMap` therefore return an `Option`, `none` standing for a panic.
* The `sync.RWMutex` of a `lockedMap` is taken and released inside every method;
  in this sequential model each method runs atomically, so the lock carries no
  state between calls and is not represented.
* A channel is its capacity, its buffered values in arrival order and its closed
  flag; a nil channel is `none`.  A call on the coordinator is a function from
  the state at the moment of the call to an `Outcome`: the call returns, waits
  for another goroutine, blocks for ever, or panics.
-/

namespace Ristretto

/-! ## Values and the locked map -/

/-- A Go `interface{}` value: the nil interface or a boxed dynamic value. -/
inductive Value where
  | nil : Value
  | int (n : Int) : Value
  | str (s : String) : Value
  deriving DecidableEq, Repr

/-- The struct `lockedMap` of `store.go`: field `data map[uint64]interface{}`. -/
structure lockedMap where
  data : Nat → Option Value

/-- The function `newLockedMap`: `data: make(map[uint64]interface{})`. -/
def newLockedMap : lockedMap :=
  { data := fun _ => none }

/-- The method `lockedMap.Get`: `item, ok := m.data[key]; return item, ok`.
A missing key yields the zero value `nil` and `false`. -/
def lockedMap.Get (m : lockedMap) (key : Nat) : Value × Bool :=
  match m.data key with
  | some item => (item, true)
  | none => (Value.nil, false)

/-- The method `lockedMap.Set`: `m.data[key] = value`. -/
def lockedMap.Set (m : lockedMap) (key : Nat) (value : Value) : lockedMap :=
  { data := fun k => if k = key then some value else m.data k }

/-- The method `lockedMap.Del`: `item, ok := m.data[key]`, then
`delete(m.data, key)` when `ok`, and `return item`. -/
def lockedMap.Del (m : lockedMap) (key : Nat) : lockedMap × Value :=
  match m.data key with
  | some item => ({ data := fun k => if k = key then none else m.data k }, item)
  | none => (m, Value.nil)

/-- The method `lockedMap.Update`: returns `false` without writing when the key
is missing, otherwise `m.data[key] = value` and `true`. -/
def lockedMap.Update (m : lockedMap) (key : Nat) (value : Value) : lockedMap × Bool :=
  match m.data key with
  | none => (m, false)
  | some _ => ({ data := fun k => if k = key then some value else m.data k }, true)

/-- The method `lockedMap.Clear`: `m.data = make(map[uint64]interface{})`. -/
def lockedMap.Clear (_m : lockedMap) : lockedMap :=
  { data := fun _ => none }

/-! ## The sharded map -/

/-- The constant `numShards uint64 = 256`. -/
def numShards : Nat := 256

/-- The struct `shardedMap`: field `shards []*lockedMap`. -/
structure shardedMap where
  shards : List (Option lockedMap)

/-- The function `newShardedMap`: `make([]*lockedMap, int(numShards))` gives
`numShards` nil pointers, then `for i := range sm.shards` stores a fresh
`newLockedMap()` at every index. -/
def newShardedMap : shardedMap :=
  let made : List (Option lockedMap) := List.replicate numShards none
  { shards := (List.range made.length).foldl
      (fun shards i => shards.set i (some newLockedMap)) made }

/-- The function `newStore`: `return newShardedMap()`. -/
def newStore : shardedMap := newShardedMap

/-- The expression `sm.shards[i]` followed by a method call on the result: a
panic (`none`) when `i` is out of range or the pointer found there is nil. -/
def shardedMap.shard (sm : shardedMap) (i : Nat) : Option lockedMap :=
  match sm.shards[i]? with
  | some (some m) => some m
  | _ => none

/-- The method `shardedMap.Get`: `sm.shards[key%numShards].Get(key)`. -/
def shardedMap.Get (sm : shardedMap) (key : Nat) : Option (Value × Bool) :=
  match sm.shard (key % numShards) with
  | some m => some (m.Get key)
  | none => none

/-- The method `shardedMap.Set`: `sm.shards[key%numShards].Set(key, value)`.
The shard is mutated through its pointer, so the new map is stored back. -/
def shardedMap.Set (sm : shardedMap) (key : Nat) (value : Value) : Option shardedMap :=
  match sm.shard (key % numShards) with
  | some m => some { shards := sm.shards.set (key % numShards) (some (m.Set key value)) }
  | none => none

/-- The method `shardedMap.Del`: `sm.shards[key%numShards].Del(key)`. -/
def shardedMap.Del (sm : shardedMap) (key : Nat) : Option (shardedMap × Value) :=
  match sm.shard (key % numShards) with
  | some m =>
    some ({ shards := sm.shards.set (key % numShards) (some (m.Del key).1) }, (m.Del key).2)
  | none => none

/-- The method `shardedMap.Update`: `sm.shards[key%numShards].Update(key, value)`. -/
def shardedMap.Update (sm : shardedMap) (key : Nat) (value : Value) :
    Option (shardedMap × Bool) :=
  match sm.shard (key % numShards) with
  | some m =>
    some ({ shards := sm.shards.set (key % numShards) (some (m.Update key value).1) },
      (m.Update key value).2)
  | none => none

/-- One iteration of the loop of `shardedMap.Clear`: `sm.shards[i].Clear()`. -/
def shardedMap.clearShard (sm : shardedMap) (i : Nat) : Option shardedMap :=
  match sm.shard i with
  | some m => some { shards := sm.shards.set i (some m.Clear) }
  | none => none

/-- The method `shardedMap.Clear`:
`for i := uint64(0); i < numShards; i++ { sm.shards[i].Clear() }`. -/
def shardedMap.Clear (sm : shardedMap) : Option shardedMap :=
  (List.range numShards).foldlM shardedMap.clearShard sm

/-! ## Calls of the `store` interface and reachable states -/

/-- A call of one of the five methods of the interface `store`. -/
inductive StoreOp where
  | get (key : Nat)
  | set (key : Nat) (value : Value)
  | del (key : Nat)
  | update (key : Nat) (value : Value)
  | clear
  deriving DecidableEq, Repr

/-- What a call of a `store` method hands back to its caller. -/
inductive StoreRet where
  | get (item : Value) (ok : Bool)
  | set
  | del (item : Value)
  | update (ok : Bool)
  | clear
  deriving DecidableEq, Repr

/-- Dispatch of a `store` call on a `shardedMap`; `none` is a panic. -/
def shardedMap.call (sm : shardedMap) : StoreOp → Option (shardedMap × StoreRet)
  | .get key => (sm.Get key).map fun r => (sm, StoreRet.get r.1 r.2)
  | .set key value => (sm.Set key value).map fun s => (s, StoreRet.set)
  | .del key => (sm.Del key).map fun r => (r.1, StoreRet.del r.2)
  | .update key value => (sm.Update key value).map fun r => (r.1, StoreRet.update r.2)
  | .clear => sm.Clear.map fun s => (s, StoreRet.clear)

/-- Dispatch of a `store` call on a single `lockedMap`, which never panics. -/
def lockedMap.call (m : lockedMap) : StoreOp → lockedMap × StoreRet
  | .get key => (m, StoreRet.get (m.Get key).1 (m.Get key).2)
  | .set key value => (m.Set key value, StoreRet.set)
  | .del key => ((m.Del key).1, StoreRet.del (m.Del key).2)
  | .update key value => ((m.Update key value).1, StoreRet.update (m.Update key value).2)
  | .clear => (m.Clear, StoreRet.clear)

/-- The states of the default store that a program can reach: the result of
`newStore()` and whatever a non-panicking call makes of a reachable state. -/
inductive Reachable : shardedMap → Prop where
  | init : Reachable newStore
  | step {sm sm1 : shardedMap} (op : StoreOp) (r : StoreRet) :
      Reachable sm → sm.call op = some (sm1, r) → Reachable sm1

/-- What the shard at index `i` stores for `key`; a nil or missing shard
stores nothing. -/
def shardedMap.lookupAt (sm : shardedMap) (i key : Nat) : Option Value :=
  match sm.shards[i]? with
  | some (some m) => m.data key
  | _ => none

/-- The key is held by the shard at index `i`. -/
def shardedMap.heldAt (sm : shardedMap) (i key : Nat) : Bool :=
  (sm.lookupAt i key).isSome

/-- The key is present in the store: some shard holds it. -/
def shardedMap.present (sm : shardedMap) (key : Nat) : Bool :=
  (List.range sm.shards.length).any fun i => sm.heldAt i key

/-- The key is present with value `v`: some shard stores `v` for it. -/
def shardedMap.holds (sm : shardedMap) (key : Nat) (v : Value) : Bool :=
  (List.range sm.shards.length).any fun i => decide (sm.lookupAt i key = some v)

/-- Sequential run of a list of calls on a `shardedMap`, collecting the results;
`none` as soon as one call panics. -/
def shardedMap.run (sm : shardedMap) : List StoreOp → Option (List StoreRet)
  | [] => some []
  | op :: ops =>
    match sm.call op with
    | some (sm1, r) => (sm1.run ops).map fun rs => r :: rs
    | none => none

/-- Sequential run of a list of calls on one `lockedMap`, collecting the results. -/
def lockedMap.run (m : lockedMap) : List StoreOp → List StoreRet
  | [] => []
  | op :: ops => (m.call op).2 :: (m.call op).1.run ops

/-- The invariant of the sharded store: `numShards` shards, none of them nil,
and a shard only holds keys that are routed to it. -/
structure Inv (sm : shardedMap) : Prop where
  len : sm.shards.length = numShards
  alloc : ∀ i, i < numShards → ∃ m, sm.shards[i]? = some (some m)
  placed : ∀ i key, sm.heldAt i key = true → i = key % numShards

/-- The store that `Set(1, 1)` makes of a fresh store: shard `1 % numShards`
holds the pair, every other shard is empty. -/
def storeOne : shardedMap :=
  { shards := newShardedMap.shards.set (1 % numShards)
      (some (newLockedMap.Set 1 (Value.int 1))) }

/-- The simulation relation between the sharded store and one unsharded map:
the shard a key is routed to stores for it what the single map stores. -/
structure Sim (sm : shardedMap) (m : lockedMap) : Prop where
  inv : Inv sm
  same : ∀ key, sm.lookupAt (key % numShards) key = m.data key

/-! ## The eviction worker of `evictor.go` -/

/-- Modelled from the spec: the discriminator of a request item (`new` |
`delete`), whose declaration (`itemNew`, `itemDelete`) is not in `evictor.go`. -/
inductive itemFlag where
  | itemNew
  | itemDelete
  deriving DecidableEq, Repr

/-- Modelled from the spec: the request item, a discriminator, a key and a
cost, whose struct declaration is not in `evictor.go`; the worker reads the
fields `flag`, `key` and `cost`, and only `key` of a victim. -/
structure item where
  flag : itemFlag
  key : Nat
  cost : Int
  deriving DecidableEq, Repr

/-- Modelled from the spec: the contract of the Policy, whose code is not in
`evictor.go`: `Add(key, cost)` returns the victims and whether the key was
admitted, `Del(key)` returns nothing; both may change the policy state `σ`. -/
structure Policy (σ : Type) where
  Add : σ → Nat → Int → (List item × Bool) × σ
  Del : σ → Nat → σ

/-- What the worker does that is visible outside it, in order: its calls of the
Policy and of the callback `onEvict`. -/
inductive Event where
  | policyAdd (key : Nat) (cost : Int)
  | policyDel (key : Nat)
  | onEvict (key : Nat)
  deriving DecidableEq, Repr

/-- The loop `for _, victim := range victims { e.onEvict(victim.key) }`. -/
def evictVictims : List item → List Event
  | [] => []
  | victim :: victims => Event.onEvict victim.key :: evictVictims victims

/-- The body of `case i := <-e.setBuf:` in `Evictor.processItems`: the switch on
`i.flag`.  Returns the policy state and the calls made, in order. -/
def processItem {σ : Type} (policy : Policy σ) (st : σ) (i : item) : σ × List Event :=
  match i.flag with
  | itemFlag.itemNew =>
    let r := policy.Add st i.key i.cost
    let victims := r.1.1
    let added := r.1.2
    (r.2, Event.policyAdd i.key i.cost
      :: ((if !added then [Event.onEvict i.key] else []) ++ evictVictims victims))
  | itemFlag.itemDelete =>
    (policy.Del st i.key, [Event.policyDel i.key])

/-- The keys of the `onEvict` calls of a trace, in order. -/
def onEvictCalls : List Event → List Nat
  | [] => []
  | Event.onEvict key :: es => key :: onEvictCalls es
  | _ :: es => onEvictCalls es

/-- A policy for examples that admits every key and names key 7 twice as a
victim of every `Add`. -/
def dupPolicy : Policy Unit where
  Add := fun st _ _ =>
    (([{ flag := itemFlag.itemNew, key := 7, cost := 0 },
       { flag := itemFlag.itemNew, key := 7, cost := 0 }], true), st)
  Del := fun st _ => st

/-- A policy for examples whose state is the list of admitted keys, oldest
first, with room for two: a cost above 2 is rejected, otherwise the key is
admitted and, when there is no room, the oldest key is the victim. -/
def fifoPolicy : Policy (List Nat) where
  Add := fun st key cost =>
    if 2 < cost then (([], false), st)
    else if st.length < 2 then (([], true), st ++ [key])
    else (((st.take 1).map fun k => { flag := itemFlag.itemNew, key := k, cost := 0 }, true),
      st.drop 1 ++ [key])
  Del := fun st key => st.filter fun k => k != key

/-! ## The coordinator of `evictor.go`: channels and lifecycle

A call such as `Add` is one send on a channel; in this model a call is a
function from the state of the coordinator at the moment of the call to the way
the call ends for its caller.  The goroutine `processItems` is the flag
`running` of the state and the function `Evictor.processNext`. -/

/-- A Go channel made by `make(chan T, cap)`: its capacity, the values buffered
in it in arrival order, and whether `close` has been called on it. -/
structure Chan (α : Type) where
  cap : Nat
  buf : List α
  closed : Bool
  deriving DecidableEq, Repr

/-- How a call ends for its caller: it returns; it waits for another goroutine
to act on the channel; it blocks for ever, as a send on a nil channel does; or
it panics. -/
inductive Outcome (α : Type) where
  | returns (a : α)
  | waits
  | blocksForever
  | panics
  deriving DecidableEq, Repr

/-- The send statement `ch <- x` on a channel value that may be nil (`none`): a
nil channel blocks for ever, a closed one panics, a buffer with room takes the
value at its tail, and a full buffer makes the sender wait. -/
def chanSend {α : Type} : Option (Chan α) → α → Outcome (Chan α)
  | none, _ => Outcome.blocksForever
  | some c, x =>
    if c.closed then Outcome.panics
    else if c.buf.length < c.cap then Outcome.returns { c with buf := c.buf ++ [x] }
    else Outcome.waits

/-- The value of the field `stop chan struct{}`: the nil channel, the zero
value of the field; an unbuffered channel as the comments in `Close` and
`Clear` presuppose; or that channel after `close`. -/
inductive StopChan where
  | nilChan
  | made
  | closed
  deriving DecidableEq, Repr

/-- The struct `Evictor`: the state of `policy`, the channel `setBuf`, the
channel `stop`, and whether the goroutine started by `go e.processItems()` is in
its loop.  The field `getBuf` (used by `Touch` only, its type is not in
`evictor.go`) is left out, and the calls of `onEvict` are the events of a trace. -/
structure Evictor (σ : Type) where
  policy : σ
  setBuf : Option (Chan item)
  stop : StopChan
  running : Bool
  deriving DecidableEq, Repr

/-- Modelled from the spec: the rest of the contract of the Policy, whose code
is not in `evictor.go`: `newPolicy(hint, capacity)`, `Clear()` and `Close()`. -/
structure PolicyLife (σ : Type) extends Policy σ where
  newPolicy : Int → Int → σ
  Clear : σ → σ
  Close : σ → σ

/-- Arithmetic on `int64` wraps around. -/
def wrapInt64 (x : Int) : Int :=
  (x + 2 ^ 63) % 2 ^ 64 - 2 ^ 63

/-- The function `NewEvictor`, with the constant `setBufSize` (declared outside
`evictor.go`) as a parameter.  The struct literal sets `policy`, `getBuf`,
`setBuf` and `onEvict`; it does not set `stop`, which keeps its zero value, the
nil channel.  Then `go e.processItems()` starts the worker. -/
def NewEvictor {σ : Type} (setBufSize : Nat) (P : PolicyLife σ) (numItemsHint size : Int) :
    Evictor σ :=
  { policy := P.newPolicy (wrapInt64 (numItemsHint * 10)) size
    setBuf := some { cap := setBufSize, buf := [], closed := false }
    stop := StopChan.nilChan
    running := true }

/-- The requests waiting in `setBuf`, oldest first. -/
def Evictor.queue {σ : Type} (e : Evictor σ) : List item :=
  match e.setBuf with
  | some c => c.buf
  | none => []

/-- The send `e.setBuf <- i` that is the body of `Add` and of `Del`. -/
def Evictor.enqueue {σ : Type} (e : Evictor σ) (i : item) : Outcome (Evictor σ) :=
  match chanSend e.setBuf i with
  | Outcome.returns c => Outcome.returns { e with setBuf := some c }
  | Outcome.waits => Outcome.waits
  | Outcome.blocksForever => Outcome.blocksForever
  | Outcome.panics => Outcome.panics

/-- The method `Evictor.Add`: `e.setBuf <- &item{flag: itemNew, key: key, cost: cost}`. -/
def Evictor.Add {σ : Type} (e : Evictor σ) (key : Nat) (cost : Int) : Outcome (Evictor σ) :=
  e.enqueue { flag := itemFlag.itemNew, key := key, cost := cost }

/-- The method `Evictor.Del`: `e.setBuf <- &item{flag: itemDelete, key: key}`;
the field `cost` has its zero value. -/
def Evictor.Del {σ : Type} (e : Evictor σ) (key : Nat) : Outcome (Evictor σ) :=
  e.enqueue { flag := itemFlag.itemDelete, key := key, cost := 0 }

/-- The statement `e.stop <- struct{}{}` of `Close` and `Clear`.  On the nil
channel it blocks for ever and on a closed channel it panics.  On the unbuffered
channel it completes when the worker takes `case <-e.stop` and returns, and
waits when no worker is running. -/
def Evictor.sendStop {σ : Type} (e : Evictor σ) : Outcome (Evictor σ) :=
  match e.stop with
  | StopChan.nilChan => Outcome.blocksForever
  | StopChan.closed => Outcome.panics
  | StopChan.made =>
    if e.running then Outcome.returns { e with running := false } else Outcome.waits

/-- The method `Evictor.Close`: `e.stop <- struct{}{}`, `close(e.stop)`,
`close(e.setBuf)`, `e.policy.Close()`.  Closing a nil or a closed channel
panics. -/
def Evictor.Close {σ : Type} (P : PolicyLife σ) (e : Evictor σ) : Outcome (Evictor σ) :=
  match e.sendStop with
  | Outcome.returns e1 =>
    match e1.stop with
    | StopChan.made =>
      match e1.setBuf with
      | some c =>
        if c.closed then Outcome.panics
        else Outcome.returns
          { e1 with
            stop := StopChan.closed
            setBuf := some { c with closed := true }
            policy := P.Close e1.policy }
      | none => Outcome.panics
    | _ => Outcome.panics
  | Outcome.waits => Outcome.waits
  | Outcome.blocksForever => Outcome.blocksForever
  | Outcome.panics => Outcome.panics

/-- The method `Evictor.Clear`: `e.stop <- struct{}{}`,
`e.setBuf = make(chan *item, setBufSize)`, `e.policy.Clear()`,
`go e.processItems()`. -/
def Evictor.Clear {σ : Type} (setBufSize : Nat) (P : PolicyLife σ) (e : Evictor σ) :
    Outcome (Evictor σ) :=
  match e.sendStop with
  | Outcome.returns e1 =>
    Outcome.returns
      { e1 with
        setBuf := some { cap := setBufSize, buf := [], closed := false }
        policy := P.Clear e1.policy
        running := true }
  | Outcome.waits => Outcome.waits
  | Outcome.blocksForever => Outcome.blocksForever
  | Outcome.panics => Outcome.panics

/-- One pass of the loop of `Evictor.processItems` that takes
`case i := <-e.setBuf`: the oldest request leaves the channel and goes through
the switch.  With nothing buffered the worker waits; a receive from a closed
and empty channel yields a nil `*item`, and `i.flag` then panics. -/
def Evictor.processNext {σ : Type} (P : Policy σ) (e : Evictor σ) :
    Outcome (Evictor σ × List Event) :=
  if e.running then
    match e.setBuf with
    | some c =>
      match c.buf with
      | i :: rest =>
        Outcome.returns
          ({ e with
             policy := (processItem P e.policy i).1
             setBuf := some { c with buf := rest } },
            (processItem P e.policy i).2)
      | [] => if c.closed then Outcome.panics else Outcome.waits
    | none => Outcome.waits
  else Outcome.waits

/-- The coordinators a program can reach: the result of `NewEvictor` and
whatever a returning `Add`, `Del`, `Clear` or `Close`, or a pass of the worker,
makes of a reachable coordinator. -/
inductive EvReachable {σ : Type} (setBufSize : Nat) (P : PolicyLife σ) : Evictor σ → Prop where
  | init (numItemsHint size : Int) :
      EvReachable setBufSize P (NewEvictor setBufSize P numItemsHint size)
  | add {e e1 : Evictor σ} (key : Nat) (cost : Int) :
      EvReachable setBufSize P e → e.Add key cost = Outcome.returns e1 →
      EvReachable setBufSize P e1
  | del {e e1 : Evictor σ} (key : Nat) :
      EvReachable setBufSize P e → e.Del key = Outcome.returns e1 →
      EvReachable setBufSize P e1
  | clear {e e1 : Evictor σ} :
      EvReachable setBufSize P e → e.Clear setBufSize P = Outcome.returns e1 →
      EvReachable setBufSize P e1
  | close {e e1 : Evictor σ} :
      EvReachable setBufSize P e → e.Close P = Outcome.returns e1 →
      EvReachable setBufSize P e1
  | work {e e1 : Evictor σ} {evs : List Event} :
      EvReachable setBufSize P e → e.processNext P.toPolicy = Outcome.returns (e1, evs) →
      EvReachable setBufSize P e1

/-- The lifecycle of the example policy `fifoPolicy`: it starts empty, and
`Clear` and `Close` empty it. -/
def fifoLife : PolicyLife (List Nat) where
  toPolicy := fifoPolicy
  newPolicy := fun _ _ => []
  Clear := fun _ => []
  Close := fun _ => []

/-- A policy for examples whose state is the list of admitted keys, oldest
first: every `Add` evicts the two oldest keys and names them as victims, and
admits the new key only when its cost is at most 2. -/
def evictTwoPolicy : Policy (List Nat) where
  Add := fun st key cost =>
    (((st.take 2).map fun k => { flag := itemFlag.itemNew, key := k, cost := 0 },
        decide (cost ≤ 2)),
      if cost ≤ 2 then st.drop 2 ++ [key] else st.drop 2)
  Del := fun st key => st.filter fun k => k != key

/-- The coordinator that `NewEvictor` with `setBufSize = 2` and then `Add(7, 1)`
and `Add(8, 1)` leave while the worker has not yet taken a request: the queue
is full. -/
def fullEvictor : Evictor (List Nat) :=
  { policy := []
    setBuf := some
      { cap := 2
        buf := [{ flag := itemFlag.itemNew, key := 7, cost := 1 },
                { flag := itemFlag.itemNew, key := 8, cost := 1 }]
        closed := false }
    stop := StopChan.nilChan
    running := true }

/-! ## Basic facts about shards -/

theorem numShards_pos : 0 < numShards := by decide

theorem mod_numShards_lt (key : Nat) : key % numShards < numShards :=
  Nat.mod_lt key numShards_pos

set_option maxRecDepth 100000 in
/-- After its loop, `newShardedMap` holds a fresh empty map at every index. -/
theorem shards_newShardedMap :
    newShardedMap.shards = List.replicate numShards (some newLockedMap) := by
  rfl

attribute [irreducible] newShardedMap

theorem shard_of_getElem? {sm : shardedMap} {i : Nat} {m : lockedMap}
    (hm : sm.shards[i]? = some (some m)) : sm.shard i = some m := by
  unfold shardedMap.shard
  rw [hm]

theorem lookupAt_of_getElem? {sm : shardedMap} {i : Nat} {m : lockedMap}
    (hm : sm.shards[i]? = some (some m)) (key : Nat) : sm.lookupAt i key = m.data key := by
  unfold shardedMap.lookupAt
  rw [hm]

/-- Reading index `j` after a store at the in-range index `i`. -/
theorem getElem?_set_shard (l : List (Option lockedMap)) (i j : Nat) (x : Option lockedMap)
    (hi : i < l.length) : (l.set i x)[j]? = if i = j then some x else l[j]? := by
  rw [List.getElem?_set]
  simp [hi]

/-- Storing back what is already there changes nothing. -/
theorem set_same_shard (l : List (Option lockedMap)) (i : Nat) (x : Option lockedMap)
    (hx : l[i]? = some x) : l.set i x = l := by
  apply List.ext_getElem?
  intro j
  rw [List.getElem?_set]
  by_cases hij : i = j
  · subst hij
    rw [if_pos rfl, hx]
    have : i < l.length := by
      by_contra hlt
      rw [List.getElem?_eq_none (Nat.le_of_not_lt hlt)] at hx
      exact absurd hx (by simp)
    rw [if_pos this]
  · rw [if_neg hij]

theorem present_eq_true_iff (sm : shardedMap) (key : Nat) :
    sm.present key = true ↔ ∃ i, sm.heldAt i key = true := by
  unfold shardedMap.present
  rw [List.any_eq_true]
  constructor
  · rintro ⟨i, _, hi⟩
    exact ⟨i, hi⟩
  · rintro ⟨i, hi⟩
    refine ⟨i, ?_, hi⟩
    rw [List.mem_range]
    by_contra hlt
    unfold shardedMap.heldAt shardedMap.lookupAt at hi
    rw [List.getElem?_eq_none (Nat.le_of_not_lt hlt)] at hi
    simp at hi

theorem holds_eq_true_iff (sm : shardedMap) (key : Nat) (v : Value) :
    sm.holds key v = true ↔ ∃ i, sm.lookupAt i key = some v := by
  unfold shardedMap.holds
  rw [List.any_eq_true]
  constructor
  · rintro ⟨i, _, hi⟩
    exact ⟨i, of_decide_eq_true hi⟩
  · rintro ⟨i, hi⟩
    refine ⟨i, ?_, decide_eq_true hi⟩
    rw [List.mem_range]
    by_contra hlt
    unfold shardedMap.lookupAt at hi
    rw [List.getElem?_eq_none (Nat.le_of_not_lt hlt)] at hi
    simp at hi

/-! ## The invariant of the sharded store -/

theorem Inv.shard_key {sm : shardedMap} (h : Inv sm) (key : Nat) :
    ∃ m, sm.shards[key % numShards]? = some (some m) :=
  h.alloc _ (mod_numShards_lt key)

theorem Inv.present_eq {sm : shardedMap} (h : Inv sm) (key : Nat) :
    sm.present key = sm.heldAt (key % numShards) key := by
  rw [Bool.eq_iff_iff, present_eq_true_iff]
  constructor
  · rintro ⟨i, hi⟩
    rw [← h.placed i key hi]
    exact hi
  · intro hk
    exact ⟨_, hk⟩

theorem Inv.holds_iff {sm : shardedMap} (h : Inv sm) (key : Nat) (v : Value) :
    sm.holds key v = true ↔ sm.lookupAt (key % numShards) key = some v := by
  rw [holds_eq_true_iff]
  constructor
  · rintro ⟨i, hi⟩
    have hp : sm.heldAt i key = true := by
      unfold shardedMap.heldAt
      rw [hi]
      rfl
    rw [← h.placed i key hp]
    exact hi
  · intro hk
    exact ⟨_, hk⟩

theorem inv_newShardedMap : Inv newShardedMap := by
  refine ⟨?_, ?_, ?_⟩
  · rw [shards_newShardedMap, List.length_replicate]
  · intro i hi
    refine ⟨newLockedMap, ?_⟩
    rw [shards_newShardedMap, List.getElem?_replicate, if_pos hi]
  · intro i key hk
    unfold shardedMap.heldAt shardedMap.lookupAt at hk
    rw [shards_newShardedMap, List.getElem?_replicate] at hk
    by_cases hi : i < numShards
    · rw [if_pos hi] at hk
      simp [newLockedMap] at hk
    · rw [if_neg hi] at hk
      simp at hk

/-- Replacing the shard of `key` by a map that holds nothing new except
possibly `key` keeps the invariant. -/
theorem Inv.set_shard {sm : shardedMap} (h : Inv sm) (key : Nat) (m m1 : lockedMap)
    (hm : sm.shards[key % numShards]? = some (some m))
    (hsub : ∀ k, (m1.data k).isSome = true → k = key ∨ (m.data k).isSome = true) :
    Inv { shards := sm.shards.set (key % numShards) (some m1) } := by
  have hlt : key % numShards < sm.shards.length := by
    rw [h.len]; exact mod_numShards_lt key
  refine ⟨?_, ?_, ?_⟩
  · simp only [List.length_set]
    exact h.len
  · intro i hi
    show ∃ m2, (sm.shards.set (key % numShards) (some m1))[i]? = some (some m2)
    rw [getElem?_set_shard _ _ _ _ hlt]
    by_cases hik : key % numShards = i
    · exact ⟨m1, by rw [if_pos hik]⟩
    · rw [if_neg hik]
      exact h.alloc i hi
  · intro i k hk
    unfold shardedMap.heldAt shardedMap.lookupAt at hk
    simp only [] at hk
    rw [getElem?_set_shard _ _ _ _ hlt] at hk
    by_cases hik : key % numShards = i
    · rw [if_pos hik] at hk
      rcases hsub k hk with hk1 | hk1
      · rw [hk1, hik]
      · apply h.placed i k
        unfold shardedMap.heldAt
        rw [← hik, lookupAt_of_getElem? hm]
        exact hk1
    · rw [if_neg hik] at hk
      exact h.placed i k hk

/-! ## The operations on a state that satisfies the invariant -/

theorem Get_of_shard {sm : shardedMap} {key : Nat} {m : lockedMap}
    (hm : sm.shards[key % numShards]? = some (some m)) :
    sm.Get key = some (m.Get key) := by
  unfold shardedMap.Get
  rw [shard_of_getElem? hm]

theorem Set_of_shard {sm : shardedMap} {key : Nat} {m : lockedMap}
    (hm : sm.shards[key % numShards]? = some (some m)) (value : Value) :
    sm.Set key value
      = some { shards := sm.shards.set (key % numShards) (some (m.Set key value)) } := by
  unfold shardedMap.Set
  rw [shard_of_getElem? hm]

theorem Del_of_shard {sm : shardedMap} {key : Nat} {m : lockedMap}
    (hm : sm.shards[key % numShards]? = some (some m)) :
    sm.Del key
      = some ({ shards := sm.shards.set (key % numShards) (some (m.Del key).1) },
          (m.Del key).2) := by
  unfold shardedMap.Del
  rw [shard_of_getElem? hm]

theorem Update_of_shard {sm : shardedMap} {key : Nat} {m : lockedMap}
    (hm : sm.shards[key % numShards]? = some (some m)) (value : Value) :
    sm.Update key value
      = some ({ shards := sm.shards.set (key % numShards) (some (m.Update key value).1) },
          (m.Update key value).2) := by
  unfold shardedMap.Update
  rw [shard_of_getElem? hm]

/-- The shard of `key` after it has been replaced. -/
theorem getElem?_set_self_shard {sm : shardedMap} (h : Inv sm) (key : Nat) (m1 : lockedMap) :
    (sm.shards.set (key % numShards) (some m1))[key % numShards]? = some (some m1) := by
  rw [getElem?_set_shard _ _ _ _ (by rw [h.len]; exact mod_numShards_lt key), if_pos rfl]

theorem lockedMap.Set_data (m : lockedMap) (key : Nat) (value : Value) (k : Nat) :
    (m.Set key value).data k = if k = key then some value else m.data k := rfl

theorem lockedMap.Del_data (m : lockedMap) (key k : Nat) :
    (m.Del key).1.data k = if k = key then none else m.data k := by
  unfold lockedMap.Del
  cases hd : m.data key with
  | none =>
    by_cases hk : k = key
    · rw [if_pos hk, hk]; exact hd
    · rw [if_neg hk]
  | some item => rfl

theorem lockedMap.Del_ret (m : lockedMap) (key : Nat) :
    (m.Del key).2 = (m.Get key).1 := by
  unfold lockedMap.Del lockedMap.Get
  cases m.data key <;> rfl

theorem lockedMap.Update_data (m : lockedMap) (key : Nat) (value : Value) (k : Nat) :
    (m.Update key value).1.data k
      = if k = key ∧ (m.data key).isSome = true then some value else m.data k := by
  unfold lockedMap.Update
  cases hd : m.data key with
  | none => simp
  | some item =>
    by_cases hk : k = key
    · simp [hk]
    · simp [hk]

theorem lockedMap.Update_ret (m : lockedMap) (key : Nat) (value : Value) :
    (m.Update key value).2 = (m.data key).isSome := by
  unfold lockedMap.Update
  cases m.data key <;> rfl

theorem lockedMap.Get_snd (m : lockedMap) (key : Nat) :
    (m.Get key).2 = (m.data key).isSome := by
  unfold lockedMap.Get
  cases m.data key <;> rfl

/-- A sharded map is determined by its slice of shards. -/
theorem shardedMap.ext_shards {sm sm1 : shardedMap} (h : sm.shards = sm1.shards) :
    sm = sm1 := by
  cases sm
  cases sm1
  congr

theorem Inv.Set {sm sm1 : shardedMap} (h : Inv sm) {key : Nat} {value : Value}
    (hs : sm.Set key value = some sm1) : Inv sm1 := by
  obtain ⟨m, hm⟩ := h.shard_key key
  rw [Set_of_shard hm] at hs
  injection hs with hs
  subst hs
  apply h.set_shard key m _ hm
  intro k hk
  rw [lockedMap.Set_data] at hk
  by_cases hkk : k = key
  · exact Or.inl hkk
  · rw [if_neg hkk] at hk
    exact Or.inr hk

theorem Inv.Del {sm sm1 : shardedMap} (h : Inv sm) {key : Nat} {item : Value}
    (hs : sm.Del key = some (sm1, item)) : Inv sm1 := by
  obtain ⟨m, hm⟩ := h.shard_key key
  rw [Del_of_shard hm] at hs
  injection hs with hs
  injection hs with hs1 hs2
  subst hs1
  apply h.set_shard key m _ hm
  intro k hk
  rw [lockedMap.Del_data] at hk
  by_cases hkk : k = key
  · exact Or.inl hkk
  · rw [if_neg hkk] at hk
    exact Or.inr hk

theorem Inv.Update {sm sm1 : shardedMap} (h : Inv sm) {key : Nat} {value : Value} {ok : Bool}
    (hs : sm.Update key value = some (sm1, ok)) : Inv sm1 := by
  obtain ⟨m, hm⟩ := h.shard_key key
  rw [Update_of_shard hm] at hs
  injection hs with hs
  injection hs with hs1 hs2
  subst hs1
  apply h.set_shard key m _ hm
  intro k hk
  rw [lockedMap.Update_data] at hk
  by_cases hkk : k = key
  · exact Or.inl hkk
  · rw [if_neg (fun hc => hkk hc.1)] at hk
    exact Or.inr hk

/-- The loop of `shardedMap.Clear` after `n` iterations: it has not panicked,
the first `n` shards are empty and the others are untouched. -/
theorem foldlM_clearShard {sm : shardedMap} (h : Inv sm) (n : Nat) (hn : n ≤ numShards) :
    ∃ sm1, (List.range n).foldlM shardedMap.clearShard sm = some sm1 ∧
      sm1.shards.length = numShards ∧
      ∀ j, sm1.shards[j]? = if j < n then some (some newLockedMap) else sm.shards[j]? := by
  induction n with
  | zero =>
    refine ⟨sm, rfl, h.len, ?_⟩
    intro j
    simp
  | succ n ih =>
    obtain ⟨sm1, hrun, hlen, hget⟩ := ih (Nat.le_of_succ_le hn)
    have hnlt : n < numShards := hn
    obtain ⟨m, hm⟩ := h.alloc n hnlt
    have hm1 : sm1.shards[n]? = some (some m) := by
      rw [hget n, if_neg (Nat.lt_irrefl n)]
      exact hm
    refine ⟨{ shards := sm1.shards.set n (some m.Clear) }, ?_, ?_, ?_⟩
    · rw [List.range_succ, List.foldlM_append, hrun]
      simp only [List.foldlM_cons, List.foldlM_nil]
      show (shardedMap.clearShard sm1 n >>= fun s => pure s) = _
      unfold shardedMap.clearShard
      rw [shard_of_getElem? hm1]
      rfl
    · simp only [List.length_set]
      exact hlen
    · intro j
      show (sm1.shards.set n (some m.Clear))[j]? = _
      rw [getElem?_set_shard _ _ _ _ (by rw [hlen]; exact hnlt)]
      by_cases hj : n = j
      · subst hj
        rw [if_pos rfl, if_pos (Nat.lt_succ_self n)]
        rfl
      · rw [if_neg hj, hget j]
        by_cases hjn : j < n
        · rw [if_pos hjn, if_pos (Nat.lt_succ_of_lt hjn)]
        · have : ¬ j < n + 1 := by omega
          rw [if_neg hjn, if_neg this]

/-- On a state that satisfies the invariant, `Clear` does not panic and leaves
exactly the state that `newShardedMap` builds. -/
theorem Inv.Clear_eq {sm : shardedMap} (h : Inv sm) : sm.Clear = some newShardedMap := by
  obtain ⟨sm1, hrun, hlen, hget⟩ := foldlM_clearShard h numShards (Nat.le_refl _)
  unfold shardedMap.Clear
  rw [hrun]
  have heq : sm1 = newShardedMap := by
    apply shardedMap.ext_shards
    apply List.ext_getElem?
    intro j
    rw [shards_newShardedMap, List.getElem?_replicate, hget j]
    by_cases hjn : j < numShards
    · rw [if_pos hjn, if_pos hjn]
    · rw [if_neg hjn, if_neg hjn]
      exact List.getElem?_eq_none (by rw [h.len]; exact Nat.le_of_not_lt hjn)
  rw [heq]

/-- Every call on a state that satisfies the invariant leaves such a state. -/
theorem Inv.call {sm sm1 : shardedMap} (h : Inv sm) {op : StoreOp} {r : StoreRet}
    (hc : sm.call op = some (sm1, r)) : Inv sm1 := by
  cases op with
  | get key =>
    simp only [shardedMap.call, Option.map_eq_some'] at hc
    obtain ⟨a, _, ha⟩ := hc
    injection ha with ha1 _
    rw [← ha1]
    exact h
  | set key value =>
    simp only [shardedMap.call, Option.map_eq_some'] at hc
    obtain ⟨a, ha0, ha⟩ := hc
    injection ha with ha1 _
    rw [← ha1]
    exact h.Set ha0
  | del key =>
    simp only [shardedMap.call, Option.map_eq_some'] at hc
    obtain ⟨a, ha0, ha⟩ := hc
    injection ha with ha1 _
    rw [← ha1]
    exact h.Del (show sm.Del key = some (a.1, a.2) from ha0)
  | update key value =>
    simp only [shardedMap.call, Option.map_eq_some'] at hc
    obtain ⟨a, ha0, ha⟩ := hc
    injection ha with ha1 _
    rw [← ha1]
    exact h.Update (show sm.Update key value = some (a.1, a.2) from ha0)
  | clear =>
    simp only [shardedMap.call, Option.map_eq_some'] at hc
    obtain ⟨a, ha0, ha⟩ := hc
    injection ha with ha1 _
    rw [← ha1]
    rw [h.Clear_eq] at ha0
    injection ha0 with ha0
    rw [← ha0]
    exact inv_newShardedMap

/-- Every reachable state of the store satisfies the invariant. -/
theorem Reachable.inv {sm : shardedMap} (h : Reachable sm) : Inv sm := by
  induction h with
  | init => exact inv_newShardedMap
  | step op r _ hc ih => exact ih.call hc

/-! ## Shared consequences of the invariant -/

theorem lockedMap.Get_congr {m m1 : lockedMap} {key : Nat} (h : m.data key = m1.data key) :
    m.Get key = m1.Get key := by
  unfold lockedMap.Get
  rw [h]

theorem lockedMap.Get_of_none {m : lockedMap} {key : Nat} (h : m.data key = none) :
    m.Get key = (Value.nil, false) := by
  unfold lockedMap.Get
  rw [h]

theorem lockedMap.Get_of_some {m : lockedMap} {key : Nat} {v : Value}
    (h : m.data key = some v) : m.Get key = (v, true) := by
  unfold lockedMap.Get
  rw [h]

/-- Presence of a key, read off the shard the key is routed to. -/
theorem Inv.present_of_shard {sm : shardedMap} (h : Inv sm) {key : Nat} {m : lockedMap}
    (hm : sm.shards[key % numShards]? = some (some m)) :
    sm.present key = (m.data key).isSome := by
  rw [h.present_eq]
  unfold shardedMap.heldAt
  rw [lookupAt_of_getElem? hm]

/-- An absent key is missing from the shard it is routed to. -/
theorem Inv.data_of_absent {sm : shardedMap} (h : Inv sm) {key : Nat} {m : lockedMap}
    (hm : sm.shards[key % numShards]? = some (some m)) (hk : sm.present key = false) :
    m.data key = none := by
  rw [h.present_of_shard hm] at hk
  cases hd : m.data key with
  | none => rfl
  | some v => rw [hd] at hk; exact absurd hk (by simp)

/-- `Set` on a state that satisfies the invariant does not panic, and `Get` of
the same key then finds the value. -/
theorem Inv.Set_Get {sm : shardedMap} (h : Inv sm) (key : Nat) (value : Value) :
    ∃ sm1, sm.Set key value = some sm1 ∧ sm1.Get key = some (value, true) := by
  obtain ⟨m, hm⟩ := h.shard_key key
  refine ⟨_, Set_of_shard hm value, ?_⟩
  have hm1 := getElem?_set_self_shard h key (m.Set key value)
  have hg : ({ shards := sm.shards.set (key % numShards) (some (m.Set key value)) }
      : shardedMap).Get key = some ((m.Set key value).Get key) := Get_of_shard hm1
  rw [hg, lockedMap.Get_of_some (v := value)]
  rw [lockedMap.Set_data, if_pos rfl]

/-- `Del` of an absent key returns nil and the state it was called on. -/
theorem Inv.Del_absent {sm : shardedMap} (h : Inv sm) {key : Nat}
    (hk : sm.present key = false) : sm.Del key = some (sm, Value.nil) := by
  obtain ⟨m, hm⟩ := h.shard_key key
  have hd := h.data_of_absent hm hk
  have hdel : m.Del key = (m, Value.nil) := by
    unfold lockedMap.Del
    rw [hd]
  rw [Del_of_shard hm, hdel]
  simp only []
  rw [set_same_shard _ _ _ hm]

/-- `Del` does not panic and leaves the key absent. -/
theorem Inv.Del_present_after {sm : shardedMap} (h : Inv sm) (key : Nat) :
    ∃ sm1 item, sm.Del key = some (sm1, item) ∧ sm1.present key = false ∧
      item = (sm.lookupAt (key % numShards) key).getD Value.nil := by
  obtain ⟨m, hm⟩ := h.shard_key key
  have hdel := Del_of_shard hm
  refine ⟨_, _, hdel, ?_, ?_⟩
  · have h1 : Inv _ := h.Del hdel
    rw [h1.present_of_shard (getElem?_set_self_shard h key (m.Del key).1),
      lockedMap.Del_data, if_pos rfl]
    rfl
  · rw [lookupAt_of_getElem? hm]
    unfold lockedMap.Del
    cases m.data key <;> rfl

/-- `Get` of an absent key reports absence with the nil value. -/
theorem Inv.Get_absent {sm : shardedMap} (h : Inv sm) {key : Nat}
    (hk : sm.present key = false) : sm.Get key = some (Value.nil, false) := by
  obtain ⟨m, hm⟩ := h.shard_key key
  rw [Get_of_shard hm, lockedMap.Get_of_none (h.data_of_absent hm hk)]

/-- `Get` does not panic and its flag is the presence of the key. -/
theorem Inv.Get_flag {sm : shardedMap} (h : Inv sm) (key : Nat) :
    ∃ item, sm.Get key = some (item, sm.present key) := by
  obtain ⟨m, hm⟩ := h.shard_key key
  refine ⟨(m.Get key).1, ?_⟩
  rw [Get_of_shard hm, h.present_of_shard hm, ← lockedMap.Get_snd]

/-- `Update` does not panic, reports the presence of the key, and `Get` of the
same key then finds the value when the key was present. -/
theorem Inv.Update_spec {sm : shardedMap} (h : Inv sm) (key : Nat) (value : Value) :
    ∃ sm1, sm.Update key value = some (sm1, sm.present key) ∧
      (sm.present key = false → sm1 = sm) ∧
      (sm.present key = true → sm1.Get key = some (value, true)) := by
  obtain ⟨m, hm⟩ := h.shard_key key
  have hup := Update_of_shard hm value
  rw [lockedMap.Update_ret, ← h.present_of_shard hm] at hup
  refine ⟨_, hup, ?_, ?_⟩
  · intro hk
    have hd := h.data_of_absent hm hk
    have hu : (m.Update key value).1 = m := by
      unfold lockedMap.Update
      rw [hd]
    rw [hu]
    exact shardedMap.ext_shards (set_same_shard _ _ _ hm)
  · intro hk
    have hm1 := getElem?_set_self_shard h key (m.Update key value).1
    have hg : ({ shards := sm.shards.set (key % numShards) (some (m.Update key value).1) }
        : shardedMap).Get key = some ((m.Update key value).1.Get key) := Get_of_shard hm1
    rw [hg, lockedMap.Get_of_some (v := value)]
    rw [lockedMap.Update_data, if_pos ⟨rfl, by rw [← h.present_of_shard hm]; exact hk⟩]

/-- In the state that `newShardedMap` builds no key is present. -/
theorem present_newShardedMap (key : Nat) : newShardedMap.present key = false := by
  have h := inv_newShardedMap
  have hm : newShardedMap.shards[key % numShards]? = some (some newLockedMap) := by
    rw [shards_newShardedMap, List.getElem?_replicate, if_pos (mod_numShards_lt key)]
  rw [h.present_of_shard hm]
  rfl

/-! ## A concrete reachable state -/

theorem shard_newShardedMap (key : Nat) :
    newShardedMap.shards[key % numShards]? = some (some newLockedMap) := by
  rw [shards_newShardedMap, List.getElem?_replicate, if_pos (mod_numShards_lt key)]

theorem Reachable.of_Set {sm sm1 : shardedMap} {key : Nat} {value : Value}
    (h : Reachable sm) (hs : sm.Set key value = some sm1) : Reachable sm1 := by
  refine Reachable.step (StoreOp.set key value) StoreRet.set h ?_
  simp only [shardedMap.call, hs, Option.map_some']

theorem Set_newStore_one : newStore.Set 1 (Value.int 1) = some storeOne :=
  Set_of_shard (shard_newShardedMap 1) (Value.int 1)

theorem storeOne_reachable : Reachable storeOne :=
  Reachable.init.of_Set Set_newStore_one

theorem storeOne_holds : storeOne.holds 1 (Value.int 1) = true := by
  rw [storeOne_reachable.inv.holds_iff]
  have hm : storeOne.shards[1 % numShards]? = some (some (newLockedMap.Set 1 (Value.int 1))) :=
    getElem?_set_self_shard inv_newShardedMap 1 _
  rw [lookupAt_of_getElem? hm]
  rfl

theorem storeOne_present : storeOne.present 1 = true := by
  rw [present_eq_true_iff]
  obtain ⟨i, hi⟩ := (holds_eq_true_iff storeOne 1 (Value.int 1)).1 storeOne_holds
  refine ⟨i, ?_⟩
  unfold shardedMap.heldAt
  rw [hi]
  rfl

theorem storeOne_absent : storeOne.present 2 = false := by
  have hm : storeOne.shards[2 % numShards]? = some (some newLockedMap) := by
    show (newShardedMap.shards.set (1 % numShards) _)[2 % numShards]? = _
    rw [getElem?_set_shard _ _ _ _
      (by rw [inv_newShardedMap.len]; exact mod_numShards_lt 1),
      if_neg (by decide), shard_newShardedMap]
  rw [storeOne_reachable.inv.present_of_shard hm]
  rfl

/-! ## The store contract -/

/-- C1: in every reachable state, for every key and values `v`, `w`: `Set(k, v)`
does not panic and `Get(k)` then returns `(v, true)`, whether or not `k` was
present; a second `Set(k, w)` followed by `Get(k)` returns `(w, true)`, so the
last write wins (`Set(k, 1)`, `Set(k, 2)`, `Get(k)` gives `(2, true)`). -/
theorem set_get_last_write (sm : shardedMap) (hr : Reachable sm) (k : Nat) (v w : Value) :
    ∃ sm1 sm2, sm.Set k v = some sm1 ∧ sm1.Get k = some (v, true) ∧
      sm1.Set k w = some sm2 ∧ sm2.Get k = some (w, true) := by
  obtain ⟨sm1, hs1, hg1⟩ := hr.inv.Set_Get k v
  obtain ⟨sm2, hs2, hg2⟩ := (hr.inv.Set hs1).Set_Get k w
  exact ⟨sm1, sm2, hs1, hg1, hs2, hg2⟩

theorem set_get_last_write_witness :
    Reachable storeOne ∧
    ∃ sm1 sm2, storeOne.Set 1 (Value.int 1) = some sm1 ∧
      sm1.Get 1 = some (Value.int 1, true) ∧
      sm1.Set 1 (Value.int 2) = some sm2 ∧ sm2.Get 1 = some (Value.int 2, true) :=
  ⟨storeOne_reachable,
    set_get_last_write storeOne storeOne_reachable 1 (Value.int 1) (Value.int 2)⟩

/-- C2: in every reachable state, for every key that is not present,
`Update(k, v)` returns false, a following `Get(k)` still returns `(nil, false)`,
and the slice of shards with all their contents is unchanged. -/
theorem update_absent_never_inserts (sm : shardedMap) (hr : Reachable sm) (k : Nat)
    (v : Value) (hk : sm.present k = false) :
    ∃ sm1, sm.Update k v = some (sm1, false) ∧ sm1.Get k = some (Value.nil, false) ∧
      sm1.shards = sm.shards := by
  obtain ⟨sm1, hu, hsame, _⟩ := hr.inv.Update_spec k v
  rw [hk] at hu
  have h1 : sm1 = sm := hsame hk
  refine ⟨sm1, hu, ?_, by rw [h1]⟩
  rw [h1]
  exact hr.inv.Get_absent hk

theorem update_absent_never_inserts_witness :
    Reachable storeOne ∧ storeOne.present 2 = false ∧
    ∃ sm1, storeOne.Update 2 (Value.int 2) = some (sm1, false) ∧
      sm1.Get 2 = some (Value.nil, false) ∧ sm1.shards = storeOne.shards :=
  ⟨storeOne_reachable, storeOne_absent,
    update_absent_never_inserts storeOne storeOne_reachable 2 (Value.int 2) storeOne_absent⟩

/-- C3: in every reachable state and for every key, `Update(k, v)` does not
panic and returns true exactly when `k` was present before the call; when it
returns true, a following `Get(k)` returns `(v, true)`. -/
theorem update_true_iff_present (sm : shardedMap) (hr : Reachable sm) (k : Nat) (v : Value) :
    ∃ sm1 ok, sm.Update k v = some (sm1, ok) ∧ (ok = true ↔ sm.present k = true) ∧
      (ok = true → sm1.Get k = some (v, true)) := by
  obtain ⟨sm1, hu, _, hget⟩ := hr.inv.Update_spec k v
  exact ⟨sm1, sm.present k, hu, Iff.rfl, hget⟩

theorem update_true_iff_present_witness :
    Reachable storeOne ∧
    ∃ sm1 ok, storeOne.Update 1 (Value.int 2) = some (sm1, ok) ∧
      (ok = true ↔ storeOne.present 1 = true) ∧
      (ok = true → sm1.Get 1 = some (Value.int 2, true)) :=
  ⟨storeOne_reachable, update_true_iff_present storeOne storeOne_reachable 1 (Value.int 2)⟩

/-- C4: in every reachable state, for every key present with value `v`,
`Del(k)` returns `v` and a following `Get(k)` returns `(nil, false)`. -/
theorem del_present_returns_value (sm : shardedMap) (hr : Reachable sm) (k : Nat) (v : Value)
    (hk : sm.holds k v = true) :
    ∃ sm1, sm.Del k = some (sm1, v) ∧ sm1.Get k = some (Value.nil, false) := by
  obtain ⟨sm1, item, hd, habs, hitem⟩ := hr.inv.Del_present_after k
  rw [(hr.inv.holds_iff k v).1 hk] at hitem
  rw [hitem] at hd
  exact ⟨sm1, hd, (hr.inv.Del hd).Get_absent habs⟩

theorem del_present_returns_value_witness :
    Reachable storeOne ∧ storeOne.holds 1 (Value.int 1) = true ∧
    ∃ sm1, storeOne.Del 1 = some (sm1, Value.int 1) ∧
      sm1.Get 1 = some (Value.nil, false) :=
  ⟨storeOne_reachable, storeOne_holds,
    del_present_returns_value storeOne storeOne_reachable 1 (Value.int 1) storeOne_holds⟩

/-- C5: in every reachable state, `Del(k)` does not panic; on a key that is not
present it returns nil and leaves the store as it was; and for every key a
second `Del(k)` returns nil and leaves the store that the first one left. -/
theorem del_idempotent (sm : shardedMap) (hr : Reachable sm) (k : Nat) :
    ∃ sm1 item, sm.Del k = some (sm1, item) ∧
      (sm.present k = false → sm1 = sm ∧ item = Value.nil) ∧
      sm1.Del k = some (sm1, Value.nil) := by
  obtain ⟨sm1, item, hd, habs, _⟩ := hr.inv.Del_present_after k
  refine ⟨sm1, item, hd, ?_, (hr.inv.Del hd).Del_absent habs⟩
  intro hk
  rw [hr.inv.Del_absent hk] at hd
  injection hd with hd
  injection hd with hd1 hd2
  exact ⟨hd1.symm, hd2.symm⟩

theorem del_idempotent_witness :
    Reachable storeOne ∧ storeOne.present 2 = false ∧
    storeOne.Del 2 = some (storeOne, Value.nil) := by
  obtain ⟨sm1, item, hd, himp, _⟩ := del_idempotent storeOne storeOne_reachable 2
  obtain ⟨h1, h2⟩ := himp storeOne_absent
  rw [h1, h2] at hd
  exact ⟨storeOne_reachable, storeOne_absent, hd⟩

/-- C6: in every reachable state `Clear()` does not panic, and afterwards
`Get(k)` returns `(nil, false)` for every key. -/
theorem clear_complete (sm : shardedMap) (hr : Reachable sm) :
    ∃ sm1, sm.Clear = some sm1 ∧ ∀ k, sm1.Get k = some (Value.nil, false) :=
  ⟨newShardedMap, hr.inv.Clear_eq,
    fun k => inv_newShardedMap.Get_absent (present_newShardedMap k)⟩

theorem clear_complete_witness :
    Reachable storeOne ∧
    ∃ sm1, storeOne.Clear = some sm1 ∧ ∀ k, sm1.Get k = some (Value.nil, false) :=
  ⟨storeOne_reachable, clear_complete storeOne storeOne_reachable⟩

/-! ## The sharded store against one unsharded map -/

theorem sim_new : Sim newShardedMap newLockedMap := by
  refine ⟨inv_newShardedMap, ?_⟩
  intro key
  rw [lookupAt_of_getElem? (shard_newShardedMap key)]

/-- Replacing the shard of `key` and the single map by maps that agree on `key`
and are unchanged elsewhere keeps the simulation. -/
theorem Sim.replace_shard {sm : shardedMap} {m : lockedMap} (hs : Sim sm m) (key : Nat)
    (ms ms1 m1 : lockedMap) (hms : sm.shards[key % numShards]? = some (some ms))
    (hkey : ms1.data key = m1.data key)
    (hshard : ∀ k, k ≠ key → ms1.data k = ms.data k)
    (hmap : ∀ k, k ≠ key → m1.data k = m.data k) :
    Sim { shards := sm.shards.set (key % numShards) (some ms1) } m1 := by
  have hlt : key % numShards < sm.shards.length := by
    rw [hs.inv.len]; exact mod_numShards_lt key
  refine ⟨?_, ?_⟩
  · apply hs.inv.set_shard key ms ms1 hms
    intro k hk
    by_cases hkk : k = key
    · exact Or.inl hkk
    · rw [hshard k hkk] at hk
      exact Or.inr hk
  · intro k
    unfold shardedMap.lookupAt
    simp only []
    rw [getElem?_set_shard _ _ _ _ hlt]
    by_cases hik : key % numShards = k % numShards
    · rw [if_pos hik]
      simp only []
      by_cases hkk : k = key
      · rw [hkk]; exact hkey
      · rw [hshard k hkk, hmap k hkk, ← hs.same k, ← hik, lookupAt_of_getElem? hms]
    · rw [if_neg hik]
      have hkk : k ≠ key := fun hc => hik (by rw [hc])
      rw [hmap k hkk, ← hs.same k]
      rfl

/-- One call: the sharded store does not panic, returns what the single map
returns, and the two stay in simulation. -/
theorem Sim.call_step {sm : shardedMap} {m : lockedMap} (hs : Sim sm m) (op : StoreOp) :
    ∃ sm1, sm.call op = some (sm1, (m.call op).2) ∧ Sim sm1 (m.call op).1 := by
  cases op with
  | get key =>
    obtain ⟨ms, hms⟩ := hs.inv.shard_key key
    have hd : ms.data key = m.data key := by
      rw [← lookupAt_of_getElem? hms, hs.same key]
    refine ⟨sm, ?_, hs⟩
    simp only [shardedMap.call, lockedMap.call, Get_of_shard hms, Option.map_some',
      lockedMap.Get_congr hd]
  | set key value =>
    obtain ⟨ms, hms⟩ := hs.inv.shard_key key
    refine ⟨_, ?_, hs.replace_shard key ms (ms.Set key value) (m.Set key value) hms ?_ ?_ ?_⟩
    · simp only [shardedMap.call, lockedMap.call, Set_of_shard hms, Option.map_some']
    · rw [lockedMap.Set_data, lockedMap.Set_data, if_pos rfl, if_pos rfl]
    · intro k hk
      rw [lockedMap.Set_data, if_neg hk]
    · intro k hk
      rw [lockedMap.Set_data, if_neg hk]
  | del key =>
    obtain ⟨ms, hms⟩ := hs.inv.shard_key key
    have hd : ms.data key = m.data key := by
      rw [← lookupAt_of_getElem? hms, hs.same key]
    refine ⟨_, ?_, hs.replace_shard key ms (ms.Del key).1 (m.Del key).1 hms ?_ ?_ ?_⟩
    · simp only [shardedMap.call, lockedMap.call, Del_of_shard hms, Option.map_some',
        lockedMap.Del_ret, lockedMap.Get_congr hd]
    · rw [lockedMap.Del_data, lockedMap.Del_data, if_pos rfl, if_pos rfl]
    · intro k hk
      rw [lockedMap.Del_data, if_neg hk]
    · intro k hk
      rw [lockedMap.Del_data, if_neg hk]
  | update key value =>
    obtain ⟨ms, hms⟩ := hs.inv.shard_key key
    have hd : ms.data key = m.data key := by
      rw [← lookupAt_of_getElem? hms, hs.same key]
    refine ⟨_, ?_,
      hs.replace_shard key ms (ms.Update key value).1 (m.Update key value).1 hms ?_ ?_ ?_⟩
    · simp only [shardedMap.call, lockedMap.call, Update_of_shard hms, Option.map_some',
        lockedMap.Update_ret, hd]
    · rw [lockedMap.Update_data, lockedMap.Update_data, hd]
    · intro k hk
      rw [lockedMap.Update_data, if_neg (fun hc => hk hc.1)]
    · intro k hk
      rw [lockedMap.Update_data, if_neg (fun hc => hk hc.1)]
  | clear =>
    refine ⟨newShardedMap, ?_, sim_new⟩
    simp only [shardedMap.call, lockedMap.call, hs.inv.Clear_eq, Option.map_some']

/-- A run of calls from states in simulation gives the same results. -/
theorem Sim.run {sm : shardedMap} {m : lockedMap} (hs : Sim sm m) (ops : List StoreOp) :
    sm.run ops = some (m.run ops) := by
  induction ops generalizing sm m with
  | nil => rfl
  | cons op ops ih =>
    obtain ⟨sm1, hc, hs1⟩ := hs.call_step op
    unfold shardedMap.run lockedMap.run
    rw [hc]
    simp only []
    rw [ih hs1]
    rfl

/-- C7: for every finite sequence of `Get`/`Set`/`Del`/`Update`/`Clear` calls,
the store of `newStore()` (256 shards, routing by `key % 256`) does not panic
and returns, call by call, exactly the results that one `lockedMap` from
`newLockedMap()` returns for the same sequence. -/
theorem sharded_refines_locked (ops : List StoreOp) :
    newStore.run ops = some (newLockedMap.run ops) :=
  sim_new.run ops

/-- C8: in every reachable state, a key that is present is held by the shard
with index `k % numShards` and by no shard with another index. -/
theorem shard_placement (sm : shardedMap) (hr : Reachable sm) (k : Nat)
    (hk : sm.present k = true) :
    sm.heldAt (k % numShards) k = true ∧ ∀ i, sm.heldAt i k = true → i = k % numShards := by
  refine ⟨?_, fun i hi => hr.inv.placed i k hi⟩
  rw [← hr.inv.present_eq]
  exact hk

theorem shard_placement_witness :
    Reachable storeOne ∧ storeOne.present 1 = true ∧
    storeOne.heldAt (1 % numShards) 1 = true ∧
    ∀ i, storeOne.heldAt i 1 = true → i = 1 % numShards :=
  ⟨storeOne_reachable, storeOne_present,
    shard_placement storeOne storeOne_reachable 1 storeOne_present⟩

/-- C9: in every reachable state and for every key: after `Set(k, nil)` the
call `Get(k)` returns `(nil, true)`; `Get` of a key that is not present returns
`(nil, false)`; and `Get` does not panic and its flag is true exactly when the
key is present. -/
theorem nil_value_is_not_absence (sm : shardedMap) (hr : Reachable sm) (k : Nat) :
    (∃ sm1, sm.Set k Value.nil = some sm1 ∧ sm1.Get k = some (Value.nil, true)) ∧
    (sm.present k = false → sm.Get k = some (Value.nil, false)) ∧
    (∃ item ok, sm.Get k = some (item, ok) ∧ (ok = true ↔ sm.present k = true)) := by
  refine ⟨hr.inv.Set_Get k Value.nil, fun hk => hr.inv.Get_absent hk, ?_⟩
  obtain ⟨item, hg⟩ := hr.inv.Get_flag k
  exact ⟨item, sm.present k, hg, Iff.rfl⟩

theorem nil_value_is_not_absence_witness :
    Reachable storeOne ∧ storeOne.present 2 = false ∧
    storeOne.Get 2 = some (Value.nil, false) ∧
    ∃ sm1, storeOne.Set 2 Value.nil = some sm1 ∧ sm1.Get 2 = some (Value.nil, true) :=
  have h := nil_value_is_not_absence storeOne storeOne_reachable 2
  ⟨storeOne_reachable, storeOne_absent, h.2.1 storeOne_absent, h.1⟩

/-! ## The worker step -/

theorem onEvictCalls_append (es fs : List Event) :
    onEvictCalls (es ++ fs) = onEvictCalls es ++ onEvictCalls fs := by
  induction es with
  | nil => rfl
  | cons e es ih =>
    cases e <;> simp [onEvictCalls, ih]

theorem onEvictCalls_evictVictims (victims : List item) :
    onEvictCalls (evictVictims victims) = victims.map item.key := by
  induction victims with
  | nil => rfl
  | cons victim victims ih => simp [evictVictims, onEvictCalls, ih]

/-- C10: for every policy, policy state and request `(key, cost)` with flag
`new`, with `(victims, added)` the result of `Policy.Add(key, cost)`: the worker
calls `Policy.Add(key, cost)` first, and its `onEvict` calls are, in order,
`key` when `added` is false (none otherwise), then the key of every victim. -/
theorem new_request_evictions {σ : Type} (policy : Policy σ) (st : σ) (key : Nat) (cost : Int) :
    onEvictCalls
        (processItem policy st { flag := itemFlag.itemNew, key := key, cost := cost }).2
      = (if (policy.Add st key cost).1.2 = false then [key] else [])
          ++ (policy.Add st key cost).1.1.map item.key := by
  simp only [processItem, onEvictCalls, onEvictCalls_append, onEvictCalls_evictVictims]
  cases (policy.Add st key cost).1.2 <;> simp [onEvictCalls]

/-! ## Frame, bounds and the result of `Del` -/

/-- Replacing the shard of `key` by a map that agrees with it away from `key`
leaves `Get` of every other key as it was. -/
theorem Inv.Get_frame {sm : shardedMap} (h : Inv sm) {key : Nat} {m m1 : lockedMap}
    (hm : sm.shards[key % numShards]? = some (some m))
    (hother : ∀ k, k ≠ key → m1.data k = m.data k) (k1 : Nat) (hne : k1 ≠ key) :
    ({ shards := sm.shards.set (key % numShards) (some m1) } : shardedMap).Get k1
      = sm.Get k1 := by
  have hlt : key % numShards < sm.shards.length := by
    rw [h.len]; exact mod_numShards_lt key
  by_cases hik : key % numShards = k1 % numShards
  · have hm1 : (sm.shards.set (key % numShards) (some m1))[k1 % numShards]?
        = some (some m1) := by
      rw [getElem?_set_shard _ _ _ _ hlt, if_pos hik]
    have hm0 : sm.shards[k1 % numShards]? = some (some m) := by
      rw [← hik]; exact hm
    have hg : ({ shards := sm.shards.set (key % numShards) (some m1) } : shardedMap).Get k1
        = some (m1.Get k1) := Get_of_shard hm1
    rw [hg, Get_of_shard hm0, lockedMap.Get_congr (hother k1 hne)]
  · obtain ⟨m2, hm2⟩ := h.shard_key k1
    have hm1 : (sm.shards.set (key % numShards) (some m1))[k1 % numShards]?
        = some (some m2) := by
      rw [getElem?_set_shard _ _ _ _ hlt, if_neg hik]
      exact hm2
    have hg : ({ shards := sm.shards.set (key % numShards) (some m1) } : shardedMap).Get k1
        = some (m2.Get k1) := Get_of_shard hm1
    rw [hg, Get_of_shard hm2]

/-- `Del` returns the value that `Get` reports just before it. -/
theorem Inv.Del_Get {sm : shardedMap} (h : Inv sm) (key : Nat) :
    ∃ sm1 g, sm.Del key = some (sm1, g.1) ∧ sm.Get key = some g := by
  obtain ⟨m, hm⟩ := h.shard_key key
  refine ⟨{ shards := sm.shards.set (key % numShards) (some (m.Del key).1) }, m.Get key,
    ?_, Get_of_shard hm⟩
  rw [Del_of_shard hm, lockedMap.Del_ret]

/-- The value part of what `Get` returns for a missing key is nil. -/
theorem lockedMap.Get_false_nil (m : lockedMap) (key : Nat) (hk : (m.Get key).2 = false) :
    (m.Get key).1 = Value.nil := by
  unfold lockedMap.Get at hk ⊢
  cases hd : m.data key with
  | none => rfl
  | some v => rw [hd] at hk; exact absurd hk (by simp)

/-- C18: in every reachable state, for distinct keys `k` and `k1` (in the same
shard or not) and every value `v`, each of `Set(k, v)`, `Del(k)` and
`Update(k, v)` does not panic and leaves the result of `Get(k1)` unchanged. -/
theorem single_key_ops_frame (sm : shardedMap) (hr : Reachable sm) (k k1 : Nat) (v : Value)
    (hne : k1 ≠ k) :
    (∃ sm1, sm.Set k v = some sm1 ∧ sm1.Get k1 = sm.Get k1) ∧
    (∃ sm1 item, sm.Del k = some (sm1, item) ∧ sm1.Get k1 = sm.Get k1) ∧
    (∃ sm1 ok, sm.Update k v = some (sm1, ok) ∧ sm1.Get k1 = sm.Get k1) := by
  obtain ⟨m, hm⟩ := hr.inv.shard_key k
  refine ⟨⟨_, Set_of_shard hm v, ?_⟩, ⟨_, _, Del_of_shard hm, ?_⟩,
    ⟨_, _, Update_of_shard hm v, ?_⟩⟩
  · apply hr.inv.Get_frame hm _ k1 hne
    intro j hj
    rw [lockedMap.Set_data, if_neg hj]
  · apply hr.inv.Get_frame hm _ k1 hne
    intro j hj
    rw [lockedMap.Del_data, if_neg hj]
  · apply hr.inv.Get_frame hm _ k1 hne
    intro j hj
    rw [lockedMap.Update_data, if_neg (fun hc => hj hc.1)]

theorem single_key_ops_frame_witness :
    Reachable storeOne ∧ (1 + 256 ≠ 1) ∧
    (∃ sm1, storeOne.Set 1 (Value.int 5) = some sm1 ∧
      sm1.Get (1 + 256) = storeOne.Get (1 + 256)) ∧
    (∃ sm1 item, storeOne.Del 1 = some (sm1, item) ∧
      sm1.Get (1 + 256) = storeOne.Get (1 + 256)) ∧
    (∃ sm1 ok, storeOne.Update 1 (Value.int 5) = some (sm1, ok) ∧
      sm1.Get (1 + 256) = storeOne.Get (1 + 256)) :=
  ⟨storeOne_reachable, by decide,
    single_key_ops_frame storeOne storeOne_reachable 1 (1 + 256) (Value.int 5) (by decide)⟩

/-- C19: in every reachable state and for every key `k`, the slice of shards has
256 entries, the index `k % numShards` is below its length and the shard there
is not nil; so `Get`, `Set`, `Del`, `Update` and `Clear` do not panic. -/
theorem shard_index_in_bounds (sm : shardedMap) (hr : Reachable sm) (k : Nat) (v : Value) :
    sm.shards.length = 256 ∧ k % numShards < sm.shards.length ∧
    (∃ m, sm.shards[k % numShards]? = some (some m)) ∧
    (sm.Get k).isSome = true ∧ (sm.Set k v).isSome = true ∧ (sm.Del k).isSome = true ∧
    (sm.Update k v).isSome = true ∧ sm.Clear.isSome = true := by
  obtain ⟨m, hm⟩ := hr.inv.shard_key k
  refine ⟨hr.inv.len, ?_, ⟨m, hm⟩, ?_, ?_, ?_, ?_, ?_⟩
  · rw [hr.inv.len]; exact mod_numShards_lt k
  · rw [Get_of_shard hm]; rfl
  · rw [Set_of_shard hm]; rfl
  · rw [Del_of_shard hm]; rfl
  · rw [Update_of_shard hm]; rfl
  · rw [hr.inv.Clear_eq]; rfl

theorem shard_index_in_bounds_witness :
    Reachable storeOne ∧
    storeOne.shards.length = 256 ∧ 1000 % numShards < storeOne.shards.length ∧
    (∃ m, storeOne.shards[1000 % numShards]? = some (some m)) ∧
    (storeOne.Get 1000).isSome = true ∧ (storeOne.Set 1000 Value.nil).isSome = true ∧
    (storeOne.Del 1000).isSome = true ∧ (storeOne.Update 1000 Value.nil).isSome = true ∧
    storeOne.Clear.isSome = true :=
  ⟨storeOne_reachable, shard_index_in_bounds storeOne storeOne_reachable 1000 Value.nil⟩

/-- C20: in every reachable state and for every key `k`, `Del(k)` does not
panic and returns nil exactly when `Get(k)` just before returned `(nil, false)`
or `(nil, true)`; and a key stored with nil and an absent key both make `Del`
return nil, so the result of `Del` alone does not tell them apart. -/
theorem del_nil_iff_absent_or_nil (sm : shardedMap) (hr : Reachable sm) (k : Nat) :
    (∃ sm1 item g, sm.Del k = some (sm1, item) ∧ sm.Get k = some g ∧
      (item = Value.nil ↔ (g = (Value.nil, false) ∨ g = (Value.nil, true)))) ∧
    (∃ sa sb ra rb, Reachable sa ∧ Reachable sb ∧
      sa.present k = true ∧ sb.present k = false ∧
      sa.Del k = some (ra, Value.nil) ∧ sb.Del k = some (rb, Value.nil)) := by
  constructor
  · obtain ⟨m, hm⟩ := hr.inv.shard_key k
    refine ⟨_, _, m.Get k, Del_of_shard hm, Get_of_shard hm, ?_⟩
    rw [lockedMap.Del_ret]
    constructor
    · intro hnil
      cases hb : (m.Get k).2 with
      | false => exact Or.inl (Prod.ext hnil hb)
      | true => exact Or.inr (Prod.ext hnil hb)
    · rintro (hg | hg) <;> rw [hg]
  · obtain ⟨sb, item, hdel, habs, _⟩ := hr.inv.Del_present_after k
    have hrb : Reachable sb := Reachable.step (StoreOp.del k) (StoreRet.del item) hr
      (by simp only [shardedMap.call, hdel, Option.map_some'])
    obtain ⟨sa, hset, hget⟩ := hrb.inv.Set_Get k Value.nil
    have hra : Reachable sa := hrb.of_Set hset
    obtain ⟨ra, g, hdela, hgeta⟩ := hra.inv.Del_Get k
    rw [hget] at hgeta
    injection hgeta with hgeta
    rw [← hgeta] at hdela
    obtain ⟨item1, hflag⟩ := hra.inv.Get_flag k
    rw [hget] at hflag
    injection hflag with hflag
    have hpres : sa.present k = true := (congrArg Prod.snd hflag).symm
    exact ⟨sa, sb, ra, sb, hra, hrb, hpres, habs, hdela, hrb.inv.Del_absent habs⟩

theorem del_nil_iff_absent_or_nil_witness :
    Reachable storeOne ∧
    (∃ sm1 item g, storeOne.Del 1 = some (sm1, item) ∧ storeOne.Get 1 = some g ∧
      (item = Value.nil ↔ (g = (Value.nil, false) ∨ g = (Value.nil, true)))) ∧
    (∃ sa sb ra rb, Reachable sa ∧ Reachable sb ∧
      sa.present 1 = true ∧ sb.present 1 = false ∧
      sa.Del 1 = some (ra, Value.nil) ∧ sb.Del 1 = some (rb, Value.nil)) :=
  ⟨storeOne_reachable, del_nil_iff_absent_or_nil storeOne storeOne_reachable 1⟩

/-! ## The worker step: duplicates and delete requests -/

/-- The `onEvict` calls of the worker on a `new` request. -/
theorem onEvictCalls_newRequest {σ : Type} (policy : Policy σ) (st : σ) (key : Nat)
    (cost : Int) :
    onEvictCalls
        (processItem policy st { flag := itemFlag.itemNew, key := key, cost := cost }).2
      = (if (policy.Add st key cost).1.2 = false then [key] else [])
          ++ (policy.Add st key cost).1.1.map item.key := by
  simp only [processItem, onEvictCalls, onEvictCalls_append, onEvictCalls_evictVictims]
  cases (policy.Add st key cost).1.2 <;> simp [onEvictCalls]

/-- C11, as stated, fails: when the policy names key 7 twice among the victims,
the worker calls `onEvict(7)` twice for the one request. -/
theorem duplicate_victim_called_twice :
    onEvictCalls
        (processItem dupPolicy () { flag := itemFlag.itemNew, key := 1, cost := 1 }).2 = [7, 7] ∧
    ¬ (onEvictCalls
        (processItem dupPolicy () { flag := itemFlag.itemNew, key := 1, cost := 1 }).2).Nodup := by
  decide

/-- C12: for every policy, policy state and request with flag `delete` and key
`k`, the worker calls `Policy.Del(k)` once and does nothing else: no
`Policy.Add`, no `onEvict`; the policy state is the one `Policy.Del` leaves. -/
theorem delete_request_only_policy_del {σ : Type} (policy : Policy σ) (st : σ) (key : Nat)
    (cost : Int) :
    processItem policy st { flag := itemFlag.itemDelete, key := key, cost := cost }
      = (policy.Del st key, [Event.policyDel key]) ∧
    onEvictCalls
      (processItem policy st { flag := itemFlag.itemDelete, key := key, cost := cost }).2
      = [] := by
  constructor <;> rfl

/-! ## The lifecycle of the coordinator -/

theorem sendStop_of_nilChan {σ : Type} {e : Evictor σ} (h : e.stop = StopChan.nilChan) :
    e.sendStop = Outcome.blocksForever := by
  unfold Evictor.sendStop
  rw [h]

theorem Clear_of_nilChan {σ : Type} (n : Nat) (P : PolicyLife σ) {e : Evictor σ}
    (h : e.stop = StopChan.nilChan) : e.Clear n P = Outcome.blocksForever := by
  unfold Evictor.Clear
  rw [sendStop_of_nilChan h]

theorem Close_of_nilChan {σ : Type} (P : PolicyLife σ) {e : Evictor σ}
    (h : e.stop = StopChan.nilChan) : e.Close P = Outcome.blocksForever := by
  unfold Evictor.Close
  rw [sendStop_of_nilChan h]

/-- With the channel `stop` made and the worker running, `Clear` returns and
leaves an empty queue of capacity `n`, a cleared policy and a running worker. -/
theorem Clear_of_made {σ : Type} (n : Nat) (P : PolicyLife σ) {e : Evictor σ}
    (h : e.stop = StopChan.made) (hrun : e.running = true) :
    e.Clear n P = Outcome.returns
      { policy := P.Clear e.policy
        setBuf := some { cap := n, buf := [], closed := false }
        stop := StopChan.made
        running := true } := by
  unfold Evictor.Clear Evictor.sendStop
  rw [h]
  simp only [hrun, if_true]

/-- With the channel `stop` made, the worker running and `setBuf` open, `Close`
returns, with the worker stopped, both channels closed and the policy closed. -/
theorem Close_of_made {σ : Type} (P : PolicyLife σ) {e : Evictor σ} {c : Chan item}
    (h : e.stop = StopChan.made) (hrun : e.running = true) (hc : e.setBuf = some c)
    (hopen : c.closed = false) :
    e.Close P = Outcome.returns
      { policy := P.Close e.policy
        setBuf := some { c with closed := true }
        stop := StopChan.closed
        running := false } := by
  unfold Evictor.Close Evictor.sendStop
  rw [h]
  simp only [hrun, if_true, h, hc, hopen, Bool.false_eq_true, if_false]

/-- A returning send on `setBuf` found the channel open with room, and put the
item at the tail. -/
theorem enqueue_returns {σ : Type} {e e1 : Evictor σ} {i : item}
    (h : e.enqueue i = Outcome.returns e1) :
    ∃ c, e.setBuf = some c ∧ c.closed = false ∧ c.buf.length < c.cap ∧
      e1 = { e with setBuf := some { c with buf := c.buf ++ [i] } } := by
  unfold Evictor.enqueue chanSend at h
  cases hs : e.setBuf with
  | none => rw [hs] at h; simp at h
  | some c =>
    rw [hs] at h
    simp only [] at h
    by_cases hcl : c.closed = true
    · rw [if_pos hcl] at h
      exact absurd h (by simp)
    · by_cases hroom : c.buf.length < c.cap
      · rw [if_neg hcl, if_pos hroom] at h
        simp only [] at h
        injection h with h
        exact ⟨c, rfl, by simpa using hcl, hroom, h.symm⟩
      · rw [if_neg hcl, if_neg hroom] at h
        exact absurd h (by simp)

/-- A send on an open `setBuf` with room returns, with the item at the tail. -/
theorem enqueue_of_room {σ : Type} {e : Evictor σ} {c : Chan item} (i : item)
    (hc : e.setBuf = some c) (hopen : c.closed = false) (hroom : c.buf.length < c.cap) :
    e.enqueue i = Outcome.returns { e with setBuf := some { c with buf := c.buf ++ [i] } } := by
  unfold Evictor.enqueue chanSend
  rw [hc]
  simp only [hopen, hroom, if_true, if_false, Bool.false_eq_true]

/-- Every coordinator reachable from `NewEvictor` has the nil channel as `stop`
and an open `setBuf` of capacity `setBufSize`. -/
theorem EvReachable.live {σ : Type} {n : Nat} {P : PolicyLife σ} {e : Evictor σ}
    (h : EvReachable n P e) :
    e.stop = StopChan.nilChan ∧ ∃ c, e.setBuf = some c ∧ c.closed = false ∧ c.cap = n := by
  induction h with
  | init numItemsHint size => exact ⟨rfl, _, rfl, rfl, rfl⟩
  | add key cost _ hadd ih =>
    obtain ⟨hstop, c, hc, hopen, hcap⟩ := ih
    obtain ⟨c1, hc1, _, _, he1⟩ := enqueue_returns hadd
    rw [hc] at hc1
    injection hc1 with hc1
    subst hc1
    rw [he1]
    exact ⟨hstop, _, rfl, hopen, hcap⟩
  | del key _ hdel ih =>
    obtain ⟨hstop, c, hc, hopen, hcap⟩ := ih
    obtain ⟨c1, hc1, _, _, he1⟩ := enqueue_returns hdel
    rw [hc] at hc1
    injection hc1 with hc1
    subst hc1
    rw [he1]
    exact ⟨hstop, _, rfl, hopen, hcap⟩
  | clear _ hclear ih =>
    rw [Clear_of_nilChan n P ih.1] at hclear
    exact absurd hclear (by simp)
  | close _ hclose ih =>
    rw [Close_of_nilChan P ih.1] at hclose
    exact absurd hclose (by simp)
  | work _ hwork ih =>
    obtain ⟨hstop, c, hc, hopen, hcap⟩ := ih
    unfold Evictor.processNext at hwork
    rw [hc] at hwork
    split at hwork
    · simp only [] at hwork
      cases hb : c.buf with
      | nil => rw [hb] at hwork; simp [hopen] at hwork
      | cons i rest =>
        rw [hb] at hwork
        simp only [] at hwork
        injection hwork with hwork
        injection hwork with he1 _
        rw [← he1]
        exact ⟨hstop, _, rfl, hopen, hcap⟩
    · exact absurd hwork (by simp)

/-- C13, on the code: for every coordinator reachable from `NewEvictor`, the
call `Clear()` does not return: its first statement sends on `stop`, which
`NewEvictor` left nil, and blocks for ever, so the queue is not replaced, the
policy is not cleared and no worker is restarted. -/
theorem clear_never_returns {σ : Type} (n : Nat) (P : PolicyLife σ) (e : Evictor σ)
    (h : EvReachable n P e) : e.Clear n P = Outcome.blocksForever :=
  Clear_of_nilChan n P h.live.1

theorem clear_never_returns_witness :
    EvReachable 4 fifoLife (NewEvictor 4 fifoLife 1 2) ∧
    (NewEvictor 4 fifoLife 1 2).Clear 4 fifoLife = Outcome.blocksForever :=
  ⟨EvReachable.init 1 2, clear_never_returns 4 fifoLife _ (EvReachable.init 1 2)⟩

/-- C14, on the code: for every coordinator reachable from `NewEvictor`, the
call `Close()` does not return: its first statement sends on the nil channel
`stop` and blocks for ever, so the worker is not stopped and `policy.Close()` is
not reached. -/
theorem close_never_returns {σ : Type} (n : Nat) (P : PolicyLife σ) (e : Evictor σ)
    (h : EvReachable n P e) : e.Close P = Outcome.blocksForever :=
  Close_of_nilChan P h.live.1

theorem close_never_returns_witness :
    EvReachable 4 fifoLife (NewEvictor 4 fifoLife 1 2) ∧
    (NewEvictor 4 fifoLife 1 2).Close fifoLife = Outcome.blocksForever :=
  ⟨EvReachable.init 1 2, close_never_returns 4 fifoLife _ (EvReachable.init 1 2)⟩

/-- C15: for every coordinator reachable from `NewEvictor` whose queue holds
fewer than `setBufSize` requests, `Add(key, cost)` returns with the request
`{new, key, cost}` appended at the tail of the queue and `Del(key)` returns with
`{delete, key}` appended at the tail; the requests already queued stay in
place and in order, and nothing else of the coordinator changes. -/
theorem add_del_enqueue_at_tail {σ : Type} (n : Nat) (P : PolicyLife σ) (e : Evictor σ)
    (h : EvReachable n P e) (hroom : e.queue.length < n) (key : Nat) (cost : Int) :
    (∃ e1, e.Add key cost = Outcome.returns e1 ∧
      e1.queue = e.queue ++ [{ flag := itemFlag.itemNew, key := key, cost := cost }] ∧
      e1.policy = e.policy ∧ e1.stop = e.stop ∧ e1.running = e.running) ∧
    (∃ e1, e.Del key = Outcome.returns e1 ∧
      e1.queue = e.queue ++ [{ flag := itemFlag.itemDelete, key := key, cost := 0 }] ∧
      e1.policy = e.policy ∧ e1.stop = e.stop ∧ e1.running = e.running) := by
  obtain ⟨_, c, hc, hopen, hcap⟩ := h.live
  have hq : e.queue = c.buf := by
    unfold Evictor.queue
    rw [hc]
  rw [hq, ← hcap] at hroom
  constructor
  · refine ⟨_, enqueue_of_room _ hc hopen hroom, ?_, rfl, rfl, rfl⟩
    rw [hq]
    rfl
  · refine ⟨_, enqueue_of_room _ hc hopen hroom, ?_, rfl, rfl, rfl⟩
    rw [hq]
    rfl

theorem add_del_enqueue_at_tail_witness :
    EvReachable 4 fifoLife (NewEvictor 4 fifoLife 1 2) ∧
    (NewEvictor 4 fifoLife 1 2).queue.length < 4 ∧
    (∃ e1, (NewEvictor 4 fifoLife 1 2).Add 9 1 = Outcome.returns e1 ∧
      e1.queue = (NewEvictor 4 fifoLife 1 2).queue
        ++ [{ flag := itemFlag.itemNew, key := 9, cost := 1 }] ∧
      e1.policy = (NewEvictor 4 fifoLife 1 2).policy ∧
      e1.stop = (NewEvictor 4 fifoLife 1 2).stop ∧
      e1.running = (NewEvictor 4 fifoLife 1 2).running) ∧
    (∃ e1, (NewEvictor 4 fifoLife 1 2).Del 9 = Outcome.returns e1 ∧
      e1.queue = (NewEvictor 4 fifoLife 1 2).queue
        ++ [{ flag := itemFlag.itemDelete, key := 9, cost := 0 }] ∧
      e1.policy = (NewEvictor 4 fifoLife 1 2).policy ∧
      e1.stop = (NewEvictor 4 fifoLife 1 2).stop ∧
      e1.running = (NewEvictor 4 fifoLife 1 2).running) :=
  ⟨EvReachable.init 1 2, by decide,
    add_del_enqueue_at_tail 4 fifoLife _ (EvReachable.init 1 2) (by decide) 9 1⟩

/-! ## One call per reported key -/

/-- C11, as amended: for every `new` request and every result `(victims, added)`
of `Policy.Add` whose victims have pairwise distinct keys, none of them the
request's key when `added` is false: every key that is a victim's key, or the
request's key when `added` is false, receives exactly one `onEvict` call while
the request is processed, and every other key receives none. -/
theorem new_request_each_key_once {σ : Type} (policy : Policy σ) (st : σ) (key : Nat)
    (cost : Int)
    (hv : ((policy.Add st key cost).1.1.map item.key).Nodup)
    (hk : (policy.Add st key cost).1.2 = false →
      key ∉ (policy.Add st key cost).1.1.map item.key) :
    (onEvictCalls
      (processItem policy st { flag := itemFlag.itemNew, key := key, cost := cost }).2).Nodup ∧
    ∀ k, (onEvictCalls
        (processItem policy st { flag := itemFlag.itemNew, key := key, cost := cost }).2).count k
      = if k ∈ (policy.Add st key cost).1.1.map item.key ∨
            ((policy.Add st key cost).1.2 = false ∧ k = key) then 1 else 0 := by
  rw [onEvictCalls_newRequest]
  cases hadd : (policy.Add st key cost).1.2 with
  | true =>
    simp only [Bool.true_eq_false, if_false, List.nil_append, false_and, or_false]
    exact ⟨hv, fun k => List.count_eq_of_nodup hv⟩
  | false =>
    have hnd : (key :: (policy.Add st key cost).1.1.map item.key).Nodup :=
      List.nodup_cons.2 ⟨hk hadd, hv⟩
    simp only [if_true, List.singleton_append, true_and]
    refine ⟨hnd, fun k => ?_⟩
    rw [List.count_eq_of_nodup hnd]
    simp only [List.mem_cons]
    by_cases h1 : k = key
    · simp [h1]
    · simp [h1]

theorem new_request_each_key_once_witness :
    (evictTwoPolicy.Add [3, 4, 6] 5 9).1.2 = false ∧
    (evictTwoPolicy.Add [3, 4, 6] 5 9).1.1.map item.key = [3, 4] ∧
    onEvictCalls
      (processItem evictTwoPolicy [3, 4, 6]
        { flag := itemFlag.itemNew, key := 5, cost := 9 }).2 = [5, 3, 4] ∧
    ((onEvictCalls
      (processItem evictTwoPolicy [3, 4, 6]
        { flag := itemFlag.itemNew, key := 5, cost := 9 }).2).Nodup ∧
    ∀ k, (onEvictCalls
        (processItem evictTwoPolicy [3, 4, 6]
          { flag := itemFlag.itemNew, key := 5, cost := 9 }).2).count k
      = if k ∈ (evictTwoPolicy.Add [3, 4, 6] 5 9).1.1.map item.key ∨
            ((evictTwoPolicy.Add [3, 4, 6] 5 9).1.2 = false ∧ k = 5) then 1 else 0) :=
  ⟨by decide, by decide, by decide,
    new_request_each_key_once evictTwoPolicy [3, 4, 6] 5 9 (by decide) (by decide)⟩

/-! ## A full queue -/

/-- The worker of a coordinator reachable from `NewEvictor` is running. -/
theorem EvReachable.worker_running {σ : Type} {n : Nat} {P : PolicyLife σ} {e : Evictor σ}
    (h : EvReachable n P e) : e.running = true := by
  induction h with
  | init numItemsHint size => rfl
  | add key cost _ hadd ih =>
    obtain ⟨c, _, _, _, he1⟩ := enqueue_returns hadd
    rw [he1]
    exact ih
  | del key _ hdel ih =>
    obtain ⟨c, _, _, _, he1⟩ := enqueue_returns hdel
    rw [he1]
    exact ih
  | clear hr hclear _ =>
    rw [Clear_of_nilChan n P hr.live.1] at hclear
    exact absurd hclear (by simp)
  | close hr hclose _ =>
    rw [Close_of_nilChan P hr.live.1] at hclose
    exact absurd hclose (by simp)
  | work _ hwork ih =>
    unfold Evictor.processNext at hwork
    rw [if_pos ih] at hwork
    split at hwork
    · split at hwork
      · injection hwork with hwork
        injection hwork with he1 _
        rw [← he1]
        exact ih
      · split at hwork <;> exact absurd hwork (by simp)
    · exact absurd hwork (by simp)

/-- A send on an open `setBuf` without room makes the sender wait. -/
theorem enqueue_of_full {σ : Type} {e : Evictor σ} {c : Chan item} (i : item)
    (hc : e.setBuf = some c) (hopen : c.closed = false) (hfull : ¬ c.buf.length < c.cap) :
    e.enqueue i = Outcome.waits := by
  unfold Evictor.enqueue chanSend
  rw [hc]
  simp only [hopen, hfull, if_false, Bool.false_eq_true]

/-- A pass of a running worker over a non-empty queue returns: the oldest
request has left the queue and has gone through the switch. -/
theorem processNext_of_cons {σ : Type} (P : Policy σ) {e : Evictor σ} {c : Chan item}
    {i : item} {rest : List item} (hrun : e.running = true) (hc : e.setBuf = some c)
    (hb : c.buf = i :: rest) :
    e.processNext P = Outcome.returns
      ({ e with
         policy := (processItem P e.policy i).1
         setBuf := some { c with buf := rest } },
        (processItem P e.policy i).2) := by
  unfold Evictor.processNext
  rw [if_pos hrun, hc]
  simp only []
  rw [hb]

/-- A pass of the worker on an open queue returns only when it took the oldest
request out of a non-empty queue. -/
theorem processNext_returns {σ : Type} {P : Policy σ} {e e1 : Evictor σ} {evs : List Event}
    {c : Chan item} (hc : e.setBuf = some c)
    (h : e.processNext P = Outcome.returns (e1, evs)) :
    ∃ i rest, c.buf = i :: rest ∧
      e1 = { e with
             policy := (processItem P e.policy i).1
             setBuf := some { c with buf := rest } } := by
  unfold Evictor.processNext at h
  rw [hc] at h
  split at h
  · simp only [] at h
    cases hb : c.buf with
    | nil =>
      rw [hb] at h
      simp only [] at h
      split at h <;> exact absurd h (by simp)
    | cons i rest =>
      rw [hb] at h
      simp only [] at h
      injection h with h
      injection h with he1 _
      exact ⟨i, rest, rfl, he1.symm⟩
  · exact absurd h (by simp)

theorem fullEvictor_reachable : EvReachable 2 fifoLife fullEvictor :=
  EvReachable.add 8 1 (EvReachable.add 7 1 (EvReachable.init 1 2) rfl) rfl

/-- C17: for every coordinator reachable from `NewEvictor` whose queue holds
`setBufSize` requests, `Add` and `Del` do not return but wait, and the queue
keeps every request; the running worker can take a request when the queue is
not empty; and once a pass of the worker has removed the oldest request, the
`Add` (or `Del`) returns with its request at the tail of the remaining queue:
the request is delivered, not dropped. -/
theorem full_queue_waits_then_delivers {σ : Type} (n : Nat) (P : PolicyLife σ)
    (e : Evictor σ) (h : EvReachable n P e) (hfull : e.queue.length = n) (key : Nat)
    (cost : Int) :
    e.Add key cost = Outcome.waits ∧ e.Del key = Outcome.waits ∧
    (0 < n → ∃ e1 evs, e.processNext P.toPolicy = Outcome.returns (e1, evs)) ∧
    ∀ e1 evs, e.processNext P.toPolicy = Outcome.returns (e1, evs) →
      e1.queue = e.queue.tail ∧
      (∃ e2, e1.Add key cost = Outcome.returns e2 ∧
        e2.queue = e.queue.tail
          ++ [{ flag := itemFlag.itemNew, key := key, cost := cost }]) ∧
      (∃ e2, e1.Del key = Outcome.returns e2 ∧
        e2.queue = e.queue.tail
          ++ [{ flag := itemFlag.itemDelete, key := key, cost := 0 }]) := by
  obtain ⟨_, c, hc, hopen, hcap⟩ := h.live
  have hq : e.queue = c.buf := by
    unfold Evictor.queue
    rw [hc]
  rw [hq] at hfull
  have hnoroom : ¬ c.buf.length < c.cap := by omega
  refine ⟨enqueue_of_full _ hc hopen hnoroom, enqueue_of_full _ hc hopen hnoroom, ?_, ?_⟩
  · intro hpos
    cases hb : c.buf with
    | nil => rw [hb] at hfull; simp at hfull; omega
    | cons i rest => exact ⟨_, _, processNext_of_cons P.toPolicy h.worker_running hc hb⟩
  · intro e1 evs hwork
    obtain ⟨i, rest, hb, he1⟩ := processNext_returns hc hwork
    have hroom : rest.length < c.cap := by
      rw [hb] at hfull
      simp only [List.length_cons] at hfull
      omega
    have hc1 : e1.setBuf = some { c with buf := rest } := by rw [he1]
    have hq1 : e1.queue = rest := by
      unfold Evictor.queue
      rw [hc1]
    have htail : e.queue.tail = rest := by rw [hq, hb]; rfl
    rw [htail]
    refine ⟨hq1, ⟨_, enqueue_of_room _ hc1 hopen hroom, rfl⟩,
      ⟨_, enqueue_of_room _ hc1 hopen hroom, rfl⟩⟩

theorem full_queue_waits_then_delivers_witness :
    EvReachable 2 fifoLife fullEvictor ∧ fullEvictor.queue.length = 2 ∧
    fullEvictor.Add 9 1 = Outcome.waits ∧ fullEvictor.Del 9 = Outcome.waits ∧
    (0 < 2 → ∃ e1 evs, fullEvictor.processNext fifoLife.toPolicy = Outcome.returns (e1, evs)) ∧
    ∀ e1 evs, fullEvictor.processNext fifoLife.toPolicy = Outcome.returns (e1, evs) →
      e1.queue = fullEvictor.queue.tail ∧
      (∃ e2, e1.Add 9 1 = Outcome.returns e2 ∧
        e2.queue = fullEvictor.queue.tail
          ++ [{ flag := itemFlag.itemNew, key := 9, cost := 1 }]) ∧
      (∃ e2, e1.Del 9 = Outcome.returns e2 ∧
        e2.queue = fullEvictor.queue.tail
          ++ [{ flag := itemFlag.itemDelete, key := 9, cost := 0 }]) :=
  ⟨fullEvictor_reachable, by decide,
    full_queue_waits_then_delivers 2 fifoLife fullEvictor fullEvictor_reachable (by decide) 9 1⟩

end Ristretto
